import Mathlib

/-!
Verification of core components of `cargo-release` (workspace release
automation): a shallow embedding of the release planner's shared-version
convergence (`src/steps/plan.rs`), tag rendering (`render_tag` and the
token-substitution `Template` of `src/ops/replace.rs`), the file
replacement engine (`do_file_replacements`), the registry index cache
(`src/ops/index.rs`), and the publish orchestration loop
(`src/steps/publish.rs`), together with theorems settling the frozen
claims about them.

Machine integers (`usize`, `u64`) are modelled as `Nat`; the counts and
lengths involved never overflow in the source, and where a bound matters
(`usize::MAX`) it is written explicitly.
-/

namespace CargoRelease

/-! ## Ordering infrastructure

The planner compares `semver::Version` values with the semver crate's
total order (`Ord` on `Version`), which compares major, minor, patch,
pre-release, and finally build metadata.  We embed that comparison and
prove it is a lawful total order, which the order-independence claim
(C3) rests on.
-/

/-- Comparison of natural numbers, mirroring `Ord` on Rust's unsigned
integers. -/
def natCmp (m n : Nat) : Ordering :=
  if m < n then .lt else if n < m then .gt else .eq

/-- A comparison function that is a lawful linear order: antisymmetric
(via `swap`), with `.eq` meaning real equality, and transitive on
`.lt`. -/
structure IsLinCmp {α : Type} (c : α → α → Ordering) : Prop where
  swap_eq : ∀ x y, (c x y).swap = c y x
  eq_iff : ∀ x y, c x y = .eq ↔ x = y
  lt_trans : ∀ {x y z}, c x y = .lt → c y z = .lt → c x z = .lt

theorem natCmp_isLinCmp : IsLinCmp natCmp := by
  constructor
  · intro x y
    simp only [natCmp]
    split <;> split <;> simp_all [Ordering.swap] <;> omega
  · intro x y
    simp only [natCmp]
    split
    · exact iff_of_false (by simp) (by omega)
    · split
      · exact iff_of_false (by simp) (by omega)
      · exact iff_of_true rfl (by omega)
  · intro x y z hxy hyz
    simp only [natCmp] at *
    split at hxy <;> split at hyz <;> simp_all <;> omega

theorem Ordering.then_eq_lt {a b : Ordering} :
    a.then b = .lt ↔ a = .lt ∨ (a = .eq ∧ b = .lt) := by
  cases a <;> simp [Ordering.then]

theorem Ordering.then_eq_eq {a b : Ordering} :
    a.then b = .eq ↔ a = .eq ∧ b = .eq := by
  cases a <;> simp [Ordering.then]

theorem Ordering.then_eq_gt {a b : Ordering} :
    a.then b = .gt ↔ a = .gt ∨ (a = .eq ∧ b = .gt) := by
  cases a <;> simp [Ordering.then]

theorem Ordering.swap_then (a b : Ordering) :
    (a.then b).swap = a.swap.then b.swap := by
  cases a <;> simp [Ordering.then, Ordering.swap]

/-- Lexicographic combination: compare a projection first, then fall back
to a second comparison.  This is the shape of each `match ... cmp` chain
in the semver crate's `Ord` implementations. -/
theorem IsLinCmp.onThen {α β : Type} (f : α → β) {cb : β → β → Ordering}
    (hb : IsLinCmp cb) {cc : α → α → Ordering} (hc : IsLinCmp cc) :
    IsLinCmp (fun x y => (cb (f x) (f y)).then (cc x y)) := by
  constructor
  · intro x y
    rw [Ordering.swap_then, hb.swap_eq, hc.swap_eq]
  · intro x y
    rw [Ordering.then_eq_eq, hb.eq_iff, hc.eq_iff]
    constructor
    · rintro ⟨-, h⟩; exact h
    · rintro rfl; exact ⟨rfl, rfl⟩
  · intro x y z hxy hyz
    rw [Ordering.then_eq_lt] at hxy hyz ⊢
    rcases hxy with h1 | ⟨h1, h1c⟩ <;> rcases hyz with h2 | ⟨h2, h2c⟩
    · exact Or.inl (hb.lt_trans h1 h2)
    · rw [hb.eq_iff] at h2; rw [h2] at h1; exact Or.inl h1
    · rw [hb.eq_iff] at h1; rw [← h1] at h2; exact Or.inl h2
    · rw [hb.eq_iff] at h1
      rw [h1]
      exact Or.inr ⟨h2, hc.lt_trans h1c h2c⟩

theorem IsLinCmp.refl_eq {α : Type} {c : α → α → Ordering} (h : IsLinCmp c)
    (x : α) : c x x = .eq :=
  (h.eq_iff x x).mpr rfl

theorem IsLinCmp.asymm {α : Type} {c : α → α → Ordering} (h : IsLinCmp c)
    {x y : α} (hxy : c x y = .lt) : c x y ≠ .gt := by
  rw [hxy]; intro hc; cases hc

theorem IsLinCmp.not_lt_not_gt_eq {α : Type} {c : α → α → Ordering}
    (h : IsLinCmp c) {x y : α} (h1 : c x y ≠ .lt) (h2 : c y x ≠ .lt) :
    x = y := by
  have hs := h.swap_eq y x
  cases hxy : c x y with
  | lt => exact absurd hxy h1
  | eq => exact (h.eq_iff x y).mp hxy
  | gt =>
    exfalso
    apply h2
    rw [hxy] at hs
    cases hyx : c y x with
    | lt => rfl
    | eq => rw [hyx] at hs; cases hs
    | gt => rw [hyx] at hs; cases hs

theorem IsLinCmp.lt_asymm {α : Type} {c : α → α → Ordering} (h : IsLinCmp c)
    {x y : α} (hxy : c x y = .lt) : c y x ≠ .lt := by
  intro hyx
  have := h.lt_trans hxy hyx
  rw [h.refl_eq] at this
  cases this

/-- Character comparison by code point, the order Rust uses for `str`
(UTF-8 byte order coincides with code-point order). -/
def charCmp (a b : Char) : Ordering :=
  natCmp a.toNat b.toNat

theorem charCmp_isLinCmp : IsLinCmp charCmp := by
  constructor
  · intro x y
    exact natCmp_isLinCmp.swap_eq _ _
  · intro x y
    rw [charCmp, natCmp_isLinCmp.eq_iff]
    exact ⟨fun h => Char.eq_of_val_eq (by
      apply UInt32.eq_of_val_eq
      apply Fin.eq_of_val_eq
      exact h), fun h => by rw [h]⟩
  · intro x y z
    exact natCmp_isLinCmp.lt_trans

/-- Lexicographic comparison of character lists, mirroring `Ord` on Rust
string slices. -/
def charListCmp : List Char → List Char → Ordering
  | [], [] => .eq
  | [], _ :: _ => .lt
  | _ :: _, [] => .gt
  | x :: xs, y :: ys => (charCmp x y).then (charListCmp xs ys)

theorem charListCmp_isLinCmp : IsLinCmp charListCmp := by
  constructor
  · intro x
    induction x with
    | nil => intro y; cases y <;> rfl
    | cons a as ih =>
      intro y
      cases y with
      | nil => rfl
      | cons b bs =>
        simp only [charListCmp, Ordering.swap_then, charCmp_isLinCmp.swap_eq,
          ih bs]
  · intro x
    induction x with
    | nil => intro y; cases y <;> simp [charListCmp]
    | cons a as ih =>
      intro y
      cases y with
      | nil => simp [charListCmp]
      | cons b bs =>
        simp only [charListCmp, Ordering.then_eq_eq, charCmp_isLinCmp.eq_iff,
          ih bs, List.cons.injEq]
  · intro x
    induction x with
    | nil =>
      intro y z hxy hyz
      cases y with
      | nil => exact hyz
      | cons b bs => cases z with
        | nil => cases hyz
        | cons c cs => rfl
    | cons a as ih =>
      intro y z hxy hyz
      cases y with
      | nil => cases hxy
      | cons b bs =>
        cases z with
        | nil => cases hyz
        | cons c cs =>
          simp only [charListCmp, Ordering.then_eq_lt] at hxy hyz ⊢
          rcases hxy with h1 | ⟨h1, h1t⟩ <;> rcases hyz with h2 | ⟨h2, h2t⟩
          · exact Or.inl (charCmp_isLinCmp.lt_trans h1 h2)
          · rw [charCmp_isLinCmp.eq_iff] at h2; rw [h2] at h1; exact Or.inl h1
          · rw [charCmp_isLinCmp.eq_iff] at h1; rw [← h1] at h2; exact Or.inl h2
          · rw [charCmp_isLinCmp.eq_iff] at h1
            rw [h1]
            exact Or.inr ⟨h2, ih h1t h2t⟩

/-! ## The semver crate's version comparison

`plan` compares versions with `existing.get().full_version <
version.full_version`, which is the semver crate's `Ord` on `Version`:
major, minor, patch numerically, then pre-release, then build metadata.
Pre-release identifiers consisting only of digits compare numerically
(the crate compares length then bytes, relying on the parser's
no-leading-zero rule); build-metadata identifiers may carry leading
zeros and compare by trimmed value then original length
(`0 < 00 < 1 < 01 < 001 < 2`).  An absent pre-release compares greater
than any present one; identifier lists compare lexicographically with a
shorter prefix comparing less.
-/

/-- Rust `bytes().all(|b| b.is_ascii_digit())`: true for the empty
identifier. -/
def digitIdent (s : List Char) : Bool := s.all (·.isDigit)

/-- Leading zeros stripped, as in `trim_start_matches('0')`. -/
def trimZeros (s : List Char) : List Char := s.dropWhile (· == '0')

/-- Numeric pre-release identifier comparison: length, then bytes. -/
def preInnerCmp (x y : List Char) : Ordering :=
  (natCmp x.length y.length).then (charListCmp x y)

theorem preInnerCmp_isLinCmp : IsLinCmp preInnerCmp :=
  IsLinCmp.onThen List.length natCmp_isLinCmp charListCmp_isLinCmp

/-- Numeric build-metadata identifier comparison: trimmed length, trimmed
bytes, then original length. -/
def buildInnerCmp (x y : List Char) : Ordering :=
  ((natCmp (trimZeros x).length (trimZeros y).length).then
    (charListCmp (trimZeros x) (trimZeros y))).then
    (natCmp x.length y.length)

theorem takeWhile_zeros_eq_replicate (l : List Char) :
    l.takeWhile (· == '0') =
      List.replicate (l.takeWhile (· == '0')).length '0' := by
  induction l with
  | nil => rfl
  | cons c cs ih =>
    by_cases h : c = '0'
    · subst h
      rw [List.takeWhile_cons_of_pos (by simp)]
      simp only [List.length_cons, List.replicate_succ]
      rw [← ih]
    · rw [List.takeWhile_cons_of_neg (by simp [h])]
      rfl

theorem trimZeros_length_inj {a b : List Char} (ht : trimZeros a = trimZeros b)
    (hl : a.length = b.length) : a = b := by
  have ha := List.takeWhile_append_dropWhile (p := (· == '0')) (l := a)
  have hb := List.takeWhile_append_dropWhile (p := (· == '0')) (l := b)
  have hla : (a.takeWhile (· == '0')).length + (trimZeros a).length
      = a.length := by
    have h := congrArg List.length ha
    rw [List.length_append] at h
    simpa [trimZeros] using h
  have hlb : (b.takeWhile (· == '0')).length + (trimZeros b).length
      = b.length := by
    have h := congrArg List.length hb
    rw [List.length_append] at h
    simpa [trimZeros] using h
  have htl : (trimZeros a).length = (trimZeros b).length := by rw [ht]
  have hlen : (a.takeWhile (· == '0')).length = (b.takeWhile (· == '0')).length := by
    omega
  have htw : a.takeWhile (· == '0') = b.takeWhile (· == '0') := by
    rw [takeWhile_zeros_eq_replicate a, takeWhile_zeros_eq_replicate b, hlen]
  calc a = a.takeWhile (· == '0') ++ trimZeros a := ha.symm
    _ = b.takeWhile (· == '0') ++ trimZeros b := by rw [htw, ht]
    _ = b := hb

/-- Compare a pair lexicographically with one comparison per component. -/
def prodCmp {α β : Type} (c₁ : α → α → Ordering) (c₂ : β → β → Ordering)
    (p q : α × β) : Ordering :=
  (c₁ p.1 q.1).then (c₂ p.2 q.2)

theorem prodCmp_isLinCmp {α β : Type} {c₁ : α → α → Ordering}
    {c₂ : β → β → Ordering} (h₁ : IsLinCmp c₁) (h₂ : IsLinCmp c₂) :
    IsLinCmp (prodCmp c₁ c₂) := by
  constructor
  · intro x y
    simp only [prodCmp, Ordering.swap_then, h₁.swap_eq, h₂.swap_eq]
  · intro x y
    simp only [prodCmp, Ordering.then_eq_eq, h₁.eq_iff, h₂.eq_iff]
    exact ⟨fun ⟨u, v⟩ => Prod.ext u v, fun h => by rw [h]; exact ⟨rfl, rfl⟩⟩
  · intro x y z hxy hyz
    simp only [prodCmp, Ordering.then_eq_lt] at hxy hyz ⊢
    rcases hxy with h1 | ⟨h1, h1c⟩ <;> rcases hyz with h2 | ⟨h2, h2c⟩
    · exact Or.inl (h₁.lt_trans h1 h2)
    · rw [h₁.eq_iff] at h2; rw [h2] at h1; exact Or.inl h1
    · rw [h₁.eq_iff] at h1; rw [← h1] at h2; exact Or.inl h2
    · rw [h₁.eq_iff] at h1
      rw [h1]
      exact Or.inr ⟨h2, h₂.lt_trans h1c h2c⟩

theorem IsLinCmp.comap {α β : Type} (f : α → β) (hf : Function.Injective f)
    {c : β → β → Ordering} (h : IsLinCmp c) :
    IsLinCmp (fun x y => c (f x) (f y)) := by
  constructor
  · intro x y; exact h.swap_eq _ _
  · intro x y
    rw [h.eq_iff]
    exact ⟨fun hxy => hf hxy, fun hxy => by rw [hxy]⟩
  · intro x y z hxy hyz
    exact h.lt_trans hxy hyz

theorem buildInnerCmp_isLinCmp : IsLinCmp buildInnerCmp := by
  have key_inj : Function.Injective (fun x : List Char => (trimZeros x, x.length)) := by
    intro a b hab
    simp only [Prod.mk.injEq] at hab
    exact trimZeros_length_inj hab.1 hab.2
  exact IsLinCmp.comap _ key_inj (prodCmp_isLinCmp preInnerCmp_isLinCmp natCmp_isLinCmp)

/-- Dispatch on whether both identifiers are numeric: numeric <
alphanumeric, numeric pairs and alphanumeric pairs via the supplied
comparisons. -/
def classCmp {α : Type} (flag : α → Bool) (cT cF : α → α → Ordering)
    (x y : α) : Ordering :=
  match flag x, flag y with
  | true, true => cT x y
  | true, false => .lt
  | false, true => .gt
  | false, false => cF x y

theorem classCmp_isLinCmp {α : Type} (flag : α → Bool)
    {cT cF : α → α → Ordering} (hT : IsLinCmp cT) (hF : IsLinCmp cF) :
    IsLinCmp (classCmp flag cT cF) := by
  constructor
  · intro x y
    simp only [classCmp]
    cases hfx : flag x <;> cases hfy : flag y <;> simp [Ordering.swap]
    · exact hF.swap_eq x y
    · exact hT.swap_eq x y
  · intro x y
    simp only [classCmp]
    cases hfx : flag x <;> cases hfy : flag y
    · exact hF.eq_iff x y
    · refine iff_of_false (by simp) (fun h => ?_)
      rw [h, hfy] at hfx; cases hfx
    · refine iff_of_false (by simp) (fun h => ?_)
      rw [h, hfy] at hfx; cases hfx
    · exact hT.eq_iff x y
  · intro x y z hxy hyz
    simp only [classCmp] at hxy hyz ⊢
    cases hfx : flag x <;> cases hfy : flag y <;> cases hfz : flag z <;>
      rw [hfx, hfy] at hxy <;> rw [hfy, hfz] at hyz <;> simp_all
    · exact hF.lt_trans hxy hyz
    · exact hT.lt_trans hxy hyz

/-- Pre-release identifier comparison (`Ord for Prerelease`, one
dot-separated identifier). -/
def cmpPreIdent : List Char → List Char → Ordering :=
  classCmp digitIdent preInnerCmp charListCmp

theorem cmpPreIdent_isLinCmp : IsLinCmp cmpPreIdent :=
  classCmp_isLinCmp digitIdent preInnerCmp_isLinCmp charListCmp_isLinCmp

/-- Build-metadata identifier comparison (`Ord for BuildMetadata`, one
dot-separated identifier). -/
def cmpBuildIdent : List Char → List Char → Ordering :=
  classCmp digitIdent buildInnerCmp charListCmp

theorem cmpBuildIdent_isLinCmp : IsLinCmp cmpBuildIdent :=
  classCmp_isLinCmp digitIdent buildInnerCmp_isLinCmp charListCmp_isLinCmp

/-- Lexicographic comparison of dot-separated identifier lists; a proper
prefix compares less. -/
def cmpIdentList (c : List Char → List Char → Ordering) :
    List (List Char) → List (List Char) → Ordering
  | [], [] => .eq
  | [], _ :: _ => .lt
  | _ :: _, [] => .gt
  | x :: xs, y :: ys => (c x y).then (cmpIdentList c xs ys)

theorem cmpIdentList_isLinCmp {c : List Char → List Char → Ordering}
    (hc : IsLinCmp c) : IsLinCmp (cmpIdentList c) := by
  constructor
  · intro x
    induction x with
    | nil => intro y; cases y <;> rfl
    | cons a as ih =>
      intro y
      cases y with
      | nil => rfl
      | cons b bs =>
        simp only [cmpIdentList, Ordering.swap_then, hc.swap_eq, ih bs]
  · intro x
    induction x with
    | nil => intro y; cases y <;> simp [cmpIdentList]
    | cons a as ih =>
      intro y
      cases y with
      | nil => simp [cmpIdentList]
      | cons b bs =>
        simp only [cmpIdentList, Ordering.then_eq_eq, hc.eq_iff, ih bs,
          List.cons.injEq]
  · intro x
    induction x with
    | nil =>
      intro y z hxy hyz
      cases y with
      | nil => exact hyz
      | cons b bs => cases z with
        | nil => cases hyz
        | cons c' cs => rfl
    | cons a as ih =>
      intro y z hxy hyz
      cases y with
      | nil => cases hxy
      | cons b bs =>
        cases z with
        | nil => cases hyz
        | cons c' cs =>
          simp only [cmpIdentList, Ordering.then_eq_lt] at hxy hyz ⊢
          rcases hxy with h1 | ⟨h1, h1t⟩ <;> rcases hyz with h2 | ⟨h2, h2t⟩
          · exact Or.inl (hc.lt_trans h1 h2)
          · rw [hc.eq_iff] at h2; rw [h2] at h1; exact Or.inl h1
          · rw [hc.eq_iff] at h1; rw [← h1] at h2; exact Or.inl h2
          · rw [hc.eq_iff] at h1
            rw [h1]
            exact Or.inr ⟨h2, ih h1t h2t⟩

/-- Rust `str::split('.')` on the underlying characters; the empty string
yields one empty identifier, exactly as `"".split('.')` does. -/
def splitOnDot : List Char → List (List Char)
  | [] => [[]]
  | c :: rest =>
    if c = '.' then [] :: splitOnDot rest
    else
      match splitOnDot rest with
      | [] => [[c]]
      | g :: gs => (c :: g) :: gs

theorem splitOnDot_ne_nil (l : List Char) : splitOnDot l ≠ [] := by
  cases l with
  | nil => simp [splitOnDot]
  | cons c rest =>
    simp only [splitOnDot]
    split
    · simp
    · split <;> simp

/-- Rejoin dot-separated identifiers; the left inverse of `splitOnDot`. -/
def unsplitDots : List (List Char) → List Char
  | [] => []
  | [g] => g
  | g :: g2 :: gs => g ++ '.' :: unsplitDots (g2 :: gs)

theorem unsplitDots_splitOnDot (l : List Char) :
    unsplitDots (splitOnDot l) = l := by
  induction l with
  | nil => rfl
  | cons c rest ih =>
    simp only [splitOnDot]
    split
    · rename_i hc
      obtain ⟨g, gs, hgs⟩ := List.exists_cons_of_ne_nil (splitOnDot_ne_nil rest)
      rw [hgs]
      rw [hgs] at ih
      simp only [unsplitDots]
      rw [ih, hc]
      rfl
    · rename_i hc
      obtain ⟨g, gs, hgs⟩ := List.exists_cons_of_ne_nil (splitOnDot_ne_nil rest)
      rw [hgs]
      rw [hgs] at ih
      cases gs with
      | nil => simp only [unsplitDots] at ih ⊢; rw [ih]
      | cons g2 gs' =>
        simp only [unsplitDots] at ih ⊢
        rw [List.cons_append, ih]

theorem splitOnDot_inj : Function.Injective splitOnDot := by
  intro a b h
  have := congrArg unsplitDots h
  rwa [unsplitDots_splitOnDot, unsplitDots_splitOnDot] at this

theorem string_data_inj {a b : String} (h : a.data = b.data) : a = b := by
  cases a; cases b; exact congrArg String.mk h

/-- `Ord for Prerelease`: an empty (absent) pre-release compares greater
than any present one; otherwise identifier lists compare
lexicographically. -/
def cmpPre (x y : String) : Ordering :=
  if x = "" then (if y = "" then .eq else .gt)
  else if y = "" then .lt
  else cmpIdentList cmpPreIdent (splitOnDot x.data) (splitOnDot y.data)

theorem cmpPre_isLinCmp : IsLinCmp cmpPre := by
  have hlist := cmpIdentList_isLinCmp cmpPreIdent_isLinCmp
  constructor
  · intro x y
    simp only [cmpPre]
    by_cases hx : x = "" <;> by_cases hy : y = "" <;> simp [hx, hy, Ordering.swap]
    exact hlist.swap_eq _ _
  · intro x y
    simp only [cmpPre]
    by_cases hx : x = ""
    · rw [if_pos hx]
      by_cases hy : y = ""
      · rw [if_pos hy]
        exact iff_of_true rfl (by rw [hx, hy])
      · rw [if_neg hy]
        exact iff_of_false (by simp) (fun h => hy (by rw [← h, hx]))
    · rw [if_neg hx]
      by_cases hy : y = ""
      · rw [if_pos hy]
        exact iff_of_false (by simp) (fun h => hx (by rw [h, hy]))
      · rw [if_neg hy, hlist.eq_iff]
        exact ⟨fun h => string_data_inj (splitOnDot_inj h), fun h => by rw [h]⟩
  · intro x y z hxy hyz
    simp only [cmpPre] at hxy hyz ⊢
    by_cases hx : x = "" <;> by_cases hy : y = "" <;> by_cases hz : z = "" <;>
      simp_all
    exact hlist.lt_trans hxy hyz

/-- `Ord for BuildMetadata`: identifier lists compare lexicographically;
the empty string is the single empty identifier, which is minimal. -/
def cmpBuild (x y : String) : Ordering :=
  cmpIdentList cmpBuildIdent (splitOnDot x.data) (splitOnDot y.data)

theorem cmpBuild_isLinCmp : IsLinCmp cmpBuild := by
  have h := (cmpIdentList_isLinCmp cmpBuildIdent_isLinCmp).comap
    (f := fun s : String => splitOnDot s.data)
    (fun a b hab => string_data_inj (splitOnDot_inj hab))
  exact h

/-- A semantic version as the semver crate stores it: numeric
major/minor/patch plus raw pre-release and build-metadata strings
(empty string = absent). -/
structure SemVer where
  major : Nat
  minor : Nat
  patch : Nat
  pre : String
  build : String
deriving DecidableEq, Repr

/-- `Ord for semver::Version`: major, minor, patch, pre-release, then
build metadata. -/
def cmpSemVer (a b : SemVer) : Ordering :=
  (natCmp a.major b.major).then
    ((natCmp a.minor b.minor).then
      ((natCmp a.patch b.patch).then
        ((cmpPre a.pre b.pre).then (cmpBuild a.build b.build))))

theorem cmpSemVer_isLinCmp : IsLinCmp cmpSemVer := by
  have key_inj : Function.Injective
      (fun a : SemVer => (a.major, a.minor, a.patch, a.pre, a.build)) := by
    intro a b hab
    simp only [Prod.mk.injEq] at hab
    cases a; cases b
    simp only [SemVer.mk.injEq]
    exact ⟨hab.1, hab.2.1, hab.2.2.1, hab.2.2.2.1, hab.2.2.2.2⟩
  exact IsLinCmp.comap _ key_inj
    (prodCmp_isLinCmp natCmp_isLinCmp
      (prodCmp_isLinCmp natCmp_isLinCmp
        (prodCmp_isLinCmp natCmp_isLinCmp
          (prodCmp_isLinCmp cmpPre_isLinCmp cmpBuild_isLinCmp))))

/-- The strict order `full_version < version.full_version` used by the
shared-version scan. -/
def semverLt (a b : SemVer) : Bool := cmpSemVer a b == .lt

/-! ## The `Version` value type (`src/steps/plan.rs`)

`Version` caches a full and a bare (build metadata stripped) form of the
semantic version, each with its rendered string; the only constructor in
the source is `From<semver::Version>`.
-/

/-- Rendering of a semantic version: `major.minor.patch`, `-pre` when a
pre-release is present, `+build` when build metadata is present. -/
def semverString (v : SemVer) : String :=
  toString v.major ++ "." ++ toString v.minor ++ "." ++ toString v.patch
    ++ (if v.pre = "" then "" else "-" ++ v.pre)
    ++ (if v.build = "" then "" else "+" ++ v.build)

/-- The bare form: build metadata cleared (`bare_version.build =
semver::BuildMetadata::EMPTY`). -/
def bareOf (v : SemVer) : SemVer := { v with build := "" }

structure Version where
  full_version : SemVer
  full_version_string : String
  bare_version : SemVer
  bare_version_string : String
deriving DecidableEq, Repr

/-- `impl From<semver::Version> for Version`. -/
def Version.ofSemver (full : SemVer) : Version :=
  { full_version := full
    full_version_string := semverString full
    bare_version := bareOf full
    bare_version_string := semverString (bareOf full) }

/-- The data-model invariant: a `Version` is what `From<semver::Version>`
builds from its own full version (the source offers no other
constructor). -/
def Version.wf (v : Version) : Prop := v = Version.ofSemver v.full_version

instance (v : Version) : Decidable v.wf := by
  unfold Version.wf; infer_instance

/-! ## Template rendering (`src/ops/replace.rs`, `Template::render`) -/

/-- Replace every occurrence of the nonempty pattern `p :: ps`, leftmost
first and non-overlapping, as Rust `str::replace` does.  `fuel` bounds
the recursion and always dominates the remaining input length, so the
`0` case is never reached from `strReplace`. -/
def replaceAux (p : Char) (ps rep : List Char) : Nat → List Char → List Char
  | _, [] => []
  | 0, s => s
  | fuel + 1, c :: rest =>
    if List.isPrefixOf (p :: ps) (c :: rest) then
      rep ++ replaceAux p ps rep fuel ((c :: rest).drop (ps.length + 1))
    else
      c :: replaceAux p ps rep fuel rest

/-- Rust `str::replace`; the tokens substituted by `Template::render` are
the fixed nonempty literals below, so the empty-pattern case is never
exercised. -/
def strReplace (s pat rep : String) : String :=
  match pat.data with
  | [] => s
  | p :: ps => ⟨replaceAux p ps rep.data s.data.length s.data⟩

/-- The token-substitution template: a bag of optional named string
slots.  `prefixVal` embeds the source's `prefix` field. -/
structure Template where
  prev_version : Option String := none
  prev_metadata : Option String := none
  version : Option String := none
  metadata : Option String := none
  crate_name : Option String := none
  date : Option String := none
  prefixVal : Option String := none
  tag_name : Option String := none
deriving DecidableEq, Repr

/-- `render_var`: substitute one token when a value is bound; when the
token is unbound its literal occurrence is only warned about, never an
error. -/
def render_var (template : String) (var_name : String)
    (var_value : Option String) : String :=
  match var_value with
  | some v => strReplace template var_name v
  | none => template

/-- `Template::render`: substitute every token in the fixed source
order. -/
def Template.render (t : Template) (input : String) : String :=
  let s := input
  let s := render_var s "{{prev_version}}" t.prev_version
  let s := render_var s "{{prev_metadata}}" t.prev_metadata
  let s := render_var s "{{version}}" t.version
  let s := render_var s "{{metadata}}" t.metadata
  let s := render_var s "{{crate_name}}" t.crate_name
  let s := render_var s "{{date}}" t.date
  let s := render_var s "\x7b\x7bprefix\x7d\x7d" t.prefixVal
  let s := render_var s "{{tag_name}}" t.tag_name
  s

/-! ## The release planner (`src/steps/plan.rs`) -/

/-- The release-policy values `plan`/`publish` consult; loaded from the
configuration module (whose accessors `release()`, `shared_version()`,
`tag()`, `tag_name()`, `tag_prefix(is_root)`, `publish()`, `verify()`,
`registry()` are plain reads of merged settings).  The two tag-prefix
slots carry the accessor's result for either value of `is_root`. -/
structure Config where
  release : Bool
  publish : Bool
  verify : Bool
  shared_version : Option String
  tag : Bool
  tag_name : String
  tag_pref_root : String
  tag_pref_nonroot : String
  registry : Option String
deriving DecidableEq, Repr

/-- `config.tag_prefix(is_root)`. -/
def Config.tagPref (c : Config) (is_root : Bool) : String :=
  if is_root then c.tag_pref_root else c.tag_pref_nonroot

/-- An in-workspace dependent: package plus version requirement. -/
structure Dependency where
  pkg_name : String
  req : String
deriving DecidableEq, Repr

/-- The per-package planning record (`PackageRelease`); `name` embeds
`meta.name`. -/
structure PackageRelease where
  name : String
  manifest_path : String
  package_root : String
  is_root : Bool
  config : Config
  package_content : List String
  bin : Bool
  dependents : List Dependency
  features : List String
  initial_version : Version
  prior_tag : Option String
  planned_version : Option Version
  planned_tag : Option String
  ensure_owners : Bool
deriving DecidableEq, Repr

/-- `pkg.planned_version.as_ref().unwrap_or(&pkg.initial_version)`. -/
def versionOf (p : PackageRelease) : Version :=
  p.planned_version.getD p.initial_version

/-- `render_tag`: two-stage token substitution.  `prev_version` /
`prev_metadata` come from the initial version's bare string and build
metadata, `version` / `metadata` from the base (planned-or-initial)
version, `crate_name` from the package name; the rendered tag-prefix
template is then bound as the `prefix` token and the tag-name template
rendered. -/
def render_tag (tag_name tag_pref name : String) (prev base : Version) :
    String :=
  let initial_version_var := prev.bare_version_string
  let existing_metadata_var := prev.full_version.build
  let version_var := base.bare_version_string
  let metadata_var := base.full_version.build
  let template : Template :=
    { prev_version := some initial_version_var
      prev_metadata := some existing_metadata_var
      version := some version_var
      metadata := some metadata_var
      crate_name := some name }
  let tag_pref_rendered := template.render tag_pref
  let template2 := { template with prefixVal := some tag_pref_rendered }
  template2.render tag_name

/-- One `shared_versions.entry(group_name)` step: occupied entries are
replaced exactly when the held full version is strictly below the new
one; vacant entries are filled. -/
def updateShared : List (String × Version) → String → Version →
    List (String × Version)
  | [], g, v => [(g, v)]
  | (g', v') :: rest, g, v =>
    if g' = g then
      (g', if semverLt v'.full_version v.full_version then v else v') :: rest
    else
      (g', v') :: updateShared rest g v

/-- The scan pass of `plan`: packages whose policy enables release and
that declare a shared-version group contribute their planned-or-initial
version to the group's running maximum. -/
def scanStep (m : List (String × Version)) (p : PackageRelease) :
    List (String × Version) :=
  if p.config.release then
    match p.config.shared_version with
    | some g => updateShared m g (versionOf p)
    | none => m
  else m

def sharedVersions (pkgs : List PackageRelease) : List (String × Version) :=
  pkgs.foldl scanStep []

/-- The assignment pass of `plan`: a release-enabled group member whose
bare initial version differs from the group maximum's bare version gets
the maximum as its planned version; one already at the maximum has its
planned version cleared.  The `none` lookup arm is unreachable (the scan
recorded every release-enabled group; the source `unwrap`s). -/
def assignShared (sv : List (String × Version)) (p : PackageRelease) :
    PackageRelease :=
  if p.config.release then
    match p.config.shared_version with
    | some g =>
      match sv.lookup g with
      | some shared_max =>
        if p.initial_version.bare_version ≠ shared_max.bare_version then
          { p with planned_version := some shared_max }
        else
          { p with planned_version := none }
      | none => p
    | none => p
  else p

/-- `PackageRelease::plan`: release-disabled packages are left untouched;
otherwise the planned tag is computed from the base (planned-or-initial)
version when tagging is enabled. -/
def planOne (p : PackageRelease) : PackageRelease :=
  if p.config.release then
    let base := versionOf p
    let tag :=
      if p.config.tag then
        some (render_tag p.config.tag_name (p.config.tagPref p.is_root)
          p.name p.initial_version base)
      else none
    { p with planned_tag := tag }
  else p

/-- The workspace-wide `plan` pass: scan shared-version groups, assign
group maxima (only when any group exists), then compute each package's
tag. -/
def plan (pkgs : List PackageRelease) : List PackageRelease :=
  let sv := sharedVersions pkgs
  let pkgs1 := if sv.isEmpty then pkgs else pkgs.map (assignShared sv)
  pkgs1.map planOne

/-! ## The file replacement engine (`src/ops/replace.rs`,
`do_file_replacements`)

The regular-expression engine is abstracted as an oracle: a compiled
regex is a match counter (`find_iter(...).count()`) plus a replacement
function (`replace_all`), and compilation
(`RegexBuilder::new(pattern).multi_line(true).build()`) is a function
from the pattern to either a compiled regex or an error.  The claims
settled here concern the engine's control flow (occurrence bounds,
dry-run and no-op write suppression), not regex semantics.  The file
system is a finite map from paths (already joined against the working
directory) to contents.
-/

/-- A replacement rule from the configuration (`config::Replace`): target
file, search pattern, replacement template, occurrence bounds, and the
pre-release applicability flag. -/
structure Replace where
  file : String
  search : String
  replace : String
  min : Option Nat
  max : Option Nat
  exactly : Option Nat
  prerelease : Bool
deriving DecidableEq, Repr

/-- A compiled regular expression, abstracted to the two operations the
engine uses. -/
structure Regex where
  count : String → Nat
  replaceAll : String → String → String

/-- `usize::MAX`, the default upper occurrence bound. -/
def usizeMax : Nat := 2 ^ 64 - 1

/-- Contents of the working tree, keyed by path. -/
def FileSys : Type := List (String × String)

/-- `std::fs::write` to an existing file: replace the first entry for the
path. -/
def fsWrite : FileSys → String → String → FileSys
  | [], _, _ => []
  | (p, c) :: rest, path, content =>
    if p = path then (p, content) :: rest
    else (p, c) :: fsWrite rest path content

/-- Insert a path into a sorted list of distinct keys (the `BTreeMap`
key order: lexicographic by bytes). -/
def insortKey (path : String) : List String → List String
  | [] => [path]
  | k :: ks =>
    match charListCmp path.data k.data with
    | .lt => path :: k :: ks
    | .eq => k :: ks
    | .gt => k :: insortKey path ks

/-- Group rules by target file as `BTreeMap` iteration does: keys in
sorted order, each key's rules in configuration order. -/
def groupByFile (cfg : List Replace) : List (String × List Replace) :=
  let keys := (cfg.map (·.file)).foldl (fun ks k => insortKey k ks) []
  keys.map (fun k => (k, cfg.filter (·.file = k)))

/-- Apply one file's rules in sequence to its in-memory contents: a rule
not applicable to pre-releases is skipped when planning one; otherwise
the pattern is compiled, the match count in the current contents checked
against the bounds (`min`/`exactly` default 1, `max`/`exactly` default
`usize::MAX`), and on success the rendered replacement applied. -/
def applyRules (compile : String → Except String Regex) (tpl : Template)
    (prerelease : Bool) : List Replace → String → Except String String
  | [], content => .ok content
  | r :: rest, content =>
    if prerelease && !r.prerelease then
      applyRules compile tpl prerelease rest content
    else
      match compile r.search with
      | .error e => .error e
      | .ok rx =>
        let mn := (r.min.or r.exactly).getD 1
        let mx := (r.max.or r.exactly).getD usizeMax
        let actual := rx.count content
        if actual < mn then
          .error ("for pattern in file, at least " ++ toString mn
            ++ " replacements expected, found " ++ toString actual)
        else if mx < actual then
          .error ("for pattern in file, at most " ++ toString mx
            ++ " replacements expected, found " ++ toString actual)
        else
          let replacer := tpl.render r.replace
          applyRules compile tpl prerelease rest
            (rx.replaceAll content replacer)

/-- The per-file loop: a missing file or a rule failure aborts the run
with an error; a changed final content is written back unless this is a
dry run (which only prints); unchanged content is never written. -/
def processFiles (compile : String → Except String Regex) (tpl : Template)
    (prerelease dry_run : Bool) :
    List (String × List Replace) → FileSys → FileSys × Option String
  | [], fs => (fs, none)
  | (path, rs) :: rest, fs =>
    match fs.lookup path with
    | none => (fs, some ("unable to find file " ++ path ++ " to perform replace"))
    | some data =>
      match applyRules compile tpl prerelease rs data with
      | .error e => (fs, some e)
      | .ok replaced =>
        let fs' :=
          if data ≠ replaced then
            if dry_run then fs else fsWrite fs path replaced
          else fs
        processFiles compile tpl prerelease dry_run rest fs'

/-- `do_file_replacements`; the `noisy` flag only selects the dry-run
status output and never affects the file system, so it is not
threaded. -/
def do_file_replacements (compile : String → Except String Regex)
    (replace_config : List Replace) (template : Template) (fs : FileSys)
    (prerelease dry_run : Bool) : FileSys × Option String :=
  processFiles compile template prerelease dry_run
    (groupByFile replace_config) fs

/-! ## The registry index cache (`src/ops/index.rs`)

`RemoteIndex` performs conditional HTTP fetches; it is abstracted as an
oracle from a crate name to the parsed sparse-index response (`none` =
not found).  Transport failures abort the whole run (§7 of the spec) and
are outside the cache behaviour settled here.  The `Bool` component of
each result records whether the call performed a remote fetch
(`index.krate(name)`).
-/

structure IndexVersion where
  version : String
deriving DecidableEq, Repr

structure IndexKrate where
  versions : List IndexVersion
deriving DecidableEq, Repr

/-- `CratesIoIndex`: the per-name memoization of index entries
(`cache`), plus whether a remote connection has been opened
(`index.is_some()`). -/
structure CratesIoIndex where
  indexOpen : Bool
  cache : List (String × Option IndexKrate)
deriving DecidableEq, Repr

/-- `CratesIoIndex::new`. -/
def CratesIoIndex.new : CratesIoIndex := ⟨false, []⟩

/-- `CratesIoIndex::krate`: a non-default registry cannot be queried and
short-circuits to `none` before the cache is consulted; a cached entry
(present or absent) is returned without fetching; otherwise the remote
index is fetched and the entry cached. -/
def CratesIoIndex.krate (fetch : String → Option IndexKrate)
    (registry : Option String) (name : String) (s : CratesIoIndex) :
    CratesIoIndex × Option IndexKrate × Bool :=
  match registry with
  | some _ => (s, none, false)
  | none =>
    match s.cache.lookup name with
    | some entry => (s, entry, false)
    | none =>
      let entry := fetch name
      ({ indexOpen := true, cache := (name, entry) :: s.cache }, entry, true)

/-- `CratesIoIndex::has_krate`. -/
def CratesIoIndex.has_krate (fetch : String → Option IndexKrate)
    (registry : Option String) (name : String) (s : CratesIoIndex) :
    CratesIoIndex × Bool × Bool :=
  let (s', entry, fetched) := CratesIoIndex.krate fetch registry name s
  (s', (entry.map (fun _ => true)).getD false, fetched)

/-- `CratesIoIndex::has_krate_version`. -/
def CratesIoIndex.has_krate_version (fetch : String → Option IndexKrate)
    (registry : Option String) (name version : String) (s : CratesIoIndex) :
    CratesIoIndex × Option Bool × Bool :=
  let (s', krate, fetched) := CratesIoIndex.krate fetch registry name s
  (s', krate.map (fun ik => ik.versions.any (fun iv => iv.version = version)),
    fetched)

/-- `CratesIoIndex::update_krate`: invalidate the cached entry for a
name, but only for the default registry. -/
def CratesIoIndex.update_krate (registry : Option String) (name : String)
    (s : CratesIoIndex) : CratesIoIndex :=
  match registry with
  | some _ => s
  | none => { s with cache := s.cache.filter (fun e => !(e.1 == name)) }

/-! ## The publish loop (`src/steps/publish.rs`, `publish`)

`cargo::publish` is abstracted as an oracle from the crate name to
success; the loop records every invocation it makes (dry-run flag,
verify flag, package) and stops at the first failure (exit code 101).
The grace sleep performs no state change and is not modelled.
-/

structure PublishInvocation where
  pkg : PackageRelease
  dry_run : Bool
  verify : Bool
deriving DecidableEq, Repr

/-- The body of `publish`, carrying the full batch length for the
verification decision (`pkgs.len() != 1`). -/
def publishLoopAux (publish_ok : String → Bool) (batch_len : Nat)
    (dry_run : Bool) :
    List PackageRelease → List PublishInvocation × Bool
  | [] => ([], true)
  | pkg :: rest =>
    if !pkg.config.publish then
      publishLoopAux publish_ok batch_len dry_run rest
    else
      let verify :=
        if !pkg.config.verify then
          false
        else if dry_run && batch_len != 1 then
          false
        else
          true
      let inv : PublishInvocation := ⟨pkg, dry_run, verify⟩
      if publish_ok pkg.name then
        ((inv :: (publishLoopAux publish_ok batch_len dry_run rest).1),
          (publishLoopAux publish_ok batch_len dry_run rest).2)
      else
        ([inv], false)

/-- `publish(pkgs, dry_run)`: the invocation trace and overall
success. -/
def publishLoop (publish_ok : String → Bool) (pkgs : List PackageRelease)
    (dry_run : Bool) : List PublishInvocation × Bool :=
  publishLoopAux publish_ok pkgs.length dry_run pkgs

/-! ## Derived notions used by the theorems -/

/-- The shared-version candidates of one group: the planned-or-initial
versions of every release-enabled member declaring that group, in scan
order. -/
def candidates (g : String) (pkgs : List PackageRelease) : List Version :=
  pkgs.filterMap (fun p =>
    if p.config.release = true ∧ p.config.shared_version = some g then
      some (versionOf p)
    else none)

/-- One step of the per-group maximum fold (`entry` update restricted to
a single group). -/
def maxStep (acc : Option Version) (v : Version) : Option Version :=
  match acc with
  | none => some v
  | some a => some (if semverLt a.full_version v.full_version then v else a)

/-- The data-model invariant for a package's versions: both stored
`Version`s are images of `From<semver::Version>`. -/
def wfPkg (p : PackageRelease) : Prop :=
  p.initial_version.wf ∧ ∀ v, p.planned_version = some v → v.wf

instance (p : PackageRelease) : Decidable (wfPkg p) := by
  unfold wfPkg; infer_instance

/-- The base template bound by `render_tag` before the prefix is
rendered. -/
def tagTemplate (prev base : Version) (name : String) : Template :=
  { prev_version := some prev.bare_version_string
    prev_metadata := some prev.full_version.build
    version := some base.bare_version_string
    metadata := some base.full_version.build
    crate_name := some name }

/-! ## Concrete instances used by witnesses and counterexamples -/

def v123 : Version := Version.ofSemver ⟨1, 2, 3, "", ""⟩

def vOne : Version := Version.ofSemver ⟨1, 0, 0, "", ""⟩

def vTwo : Version := Version.ofSemver ⟨2, 0, 0, "", ""⟩

def vMa : Version := Version.ofSemver ⟨1, 0, 0, "", "a"⟩

def vMb : Version := Version.ofSemver ⟨1, 0, 0, "", "b"⟩

/-- A release-enabled configuration in shared-version group `g` with the
default-shaped tag templates. -/
def cfgG : Config :=
  { release := true
    publish := true
    verify := true
    shared_version := some "g"
    tag := true
    tag_name := "\x7b\x7bprefix\x7d\x7dv{{version}}"
    tag_pref_root := ""
    tag_pref_nonroot := "{{crate_name}}-"
    registry := none }

def mkPkgW (n : String) (iv : Version) (pv : Option Version) :
    PackageRelease :=
  { name := n
    manifest_path := n ++ "/Cargo.toml"
    package_root := n
    is_root := false
    config := cfgG
    package_content := []
    bin := false
    dependents := []
    features := []
    initial_version := iv
    prior_tag := none
    planned_version := pv
    planned_tag := none
    ensure_owners := false }

/-- Package `b` of the spec scenario: bumped to 2.0.0. -/
def pkgB : PackageRelease := mkPkgW "b" vOne (some vTwo)

/-- Package `a` of the spec scenario: still at 1.0.0, depends on `b`. -/
def pkgA : PackageRelease := mkPkgW "a" vOne none

/-- First-scanned member at 1.0.0+a. -/
def pkgMa : PackageRelease := mkPkgW "ma" vMa none

/-- Second-scanned member at 1.0.0+b (same bare version, different build
metadata). -/
def pkgMb : PackageRelease := mkPkgW "mb" vMb none

/-- A regex oracle whose compiled patterns match nothing. -/
def rxNone : Regex := ⟨fun _ => 0, fun c _ => c⟩

def compileNone : String → Except String Regex := fun _ => .ok rxNone

/-- A regex oracle whose compiled patterns match exactly once and whose
replacement leaves the content unchanged. -/
def rxSame : Regex := ⟨fun _ => 1, fun c _ => c⟩

def compileSame : String → Except String Regex := fun _ => .ok rxSame

/-- A rule demanding exactly one occurrence. -/
def ruleExactly1 : Replace :=
  { file := "Cargo.toml"
    search := "version = 1"
    replace := "version = 2"
    min := none
    max := none
    exactly := some 1
    prerelease := true }

def fsW : FileSys := [("Cargo.toml", "content")]

def tplEmpty : Template := {}

/-! ## Helper lemmas -/

theorem lookup_filter_not_eq (name : String)
    (l : List (String × Option IndexKrate)) :
    (l.filter (fun e => !(e.1 == name))).lookup name = none := by
  induction l with
  | nil => rfl
  | cons e rest ih =>
    by_cases h : e.1 = name
    · simp [List.filter_cons, h, ih]
    · simp only [List.filter_cons]
      rw [if_pos (by simp [h])]
      simp only [List.lookup]
      have hb : (name == e.1) = false := by simp [Ne.symm h]
      rw [hb]
      exact ih

/-! ## Claims about the registry index cache -/

/-- C7: within one run, a second `krate` query for the same name on the
default registry performs no remote fetch and returns the cached result
(present or absent entries alike); after `update_krate` invalidates that
name, the next query fetches again. -/
theorem krate_cached_until_invalidated
    (fetch : String → Option IndexKrate) (name : String)
    (s : CratesIoIndex) :
    (CratesIoIndex.krate fetch none name
        (CratesIoIndex.krate fetch none name s).1 =
      ((CratesIoIndex.krate fetch none name s).1,
        (CratesIoIndex.krate fetch none name s).2.1, false)) ∧
    ((CratesIoIndex.krate fetch none name s).1.cache.lookup name =
      some (CratesIoIndex.krate fetch none name s).2.1) ∧
    ((CratesIoIndex.krate fetch none name
        (CratesIoIndex.update_krate none name
          (CratesIoIndex.krate fetch none name s).1)).2.2 = true) := by
  cases h : s.cache.lookup name with
  | none =>
    refine ⟨?_, ?_, ?_⟩
    · simp [CratesIoIndex.krate, h, List.lookup]
    · simp [CratesIoIndex.krate, h, List.lookup]
    · simp [CratesIoIndex.krate, CratesIoIndex.update_krate, h,
        lookup_filter_not_eq]
  | some entry =>
    refine ⟨?_, ?_, ?_⟩
    · simp [CratesIoIndex.krate, h]
    · simp [CratesIoIndex.krate, h]
    · simp [CratesIoIndex.krate, CratesIoIndex.update_krate, h,
        lookup_filter_not_eq]

/-- C8: with a non-default registry configured, `has_krate_version`
answers `none` ("don't know") with no remote fetch and no state change,
whatever the cache holds. -/
theorem has_krate_version_non_default_registry
    (fetch : String → Option IndexKrate) (registry name version : String)
    (s : CratesIoIndex) :
    CratesIoIndex.has_krate_version fetch (some registry) name version s =
      (s, none, false) := rfl

/-- C10: with a non-default registry configured, the boolean `has_krate`
collapses "cannot determine" to `false`, with no remote fetch and no
state change. -/
theorem has_krate_non_default_registry
    (fetch : String → Option IndexKrate) (registry name : String)
    (s : CratesIoIndex) :
    CratesIoIndex.has_krate fetch (some registry) name s =
      (s, false, false) := rfl

/-! ## Claims about the publish loop -/

theorem publishLoopAux_mem (ok : String → Bool) (n : Nat) (d : Bool) :
    ∀ (l : List PackageRelease) (inv : PublishInvocation),
      inv ∈ (publishLoopAux ok n d l).1 →
      inv.pkg ∈ l ∧ inv.pkg.config.publish = true ∧ inv.dry_run = d ∧
        inv.verify = (if !inv.pkg.config.verify then false
          else if d && n != 1 then false else true) := by
  intro l
  induction l with
  | nil => intro inv hmem; cases hmem
  | cons pkg rest ih =>
    intro inv hmem
    by_cases hp : pkg.config.publish = true
    · rw [publishLoopAux, if_neg (by simp [hp])] at hmem
      by_cases hok : ok pkg.name = true
      · rw [if_pos hok] at hmem
        rcases List.mem_cons.mp hmem with heq | htail
        · subst heq
          exact ⟨List.mem_cons_self _ _, hp, rfl, rfl⟩
        · obtain ⟨h1, h2, h3, h4⟩ := ih inv htail
          exact ⟨List.mem_cons_of_mem _ h1, h2, h3, h4⟩
      · rw [if_neg hok] at hmem
        rcases List.mem_cons.mp hmem with heq | htail
        · subst heq
          exact ⟨List.mem_cons_self _ _, hp, rfl, rfl⟩
        · cases htail
    · rw [publishLoopAux, if_pos (by simp [Bool.eq_false_iff.mpr hp])] at hmem
      obtain ⟨h1, h2, h3, h4⟩ := ih inv hmem
      exact ⟨List.mem_cons_of_mem _ h1, h2, h3, h4⟩

/-- C9: for every invocation the publish loop makes, the verify flag is
forced to `false` when the run is a dry run and the batch holds more
than one package, and otherwise follows the package's verify policy. -/
theorem publish_verify_skip (ok : String → Bool)
    (pkgs : List PackageRelease) (dry_run : Bool)
    (inv : PublishInvocation)
    (hmem : inv ∈ (publishLoop ok pkgs dry_run).1) :
    ((dry_run = true ∧ 1 < pkgs.length) → inv.verify = false) ∧
    (¬(dry_run = true ∧ 1 < pkgs.length) →
      inv.verify = inv.pkg.config.verify) := by
  obtain ⟨hpkg, hpub, hd, hv⟩ :=
    publishLoopAux_mem ok pkgs.length dry_run pkgs inv hmem
  constructor
  · rintro ⟨hd1, hlen⟩
    rw [hv]
    cases hcv : inv.pkg.config.verify
    · simp
    · have hne : (pkgs.length != 1) = true := by
        simp only [bne_iff_ne, ne_eq]
        omega
      simp [hcv, hd1, hne]
  · intro hnot
    rw [hv]
    cases hcv : inv.pkg.config.verify
    · simp
    · cases hd2 : dry_run
      · simp
      · have hpos : 0 < pkgs.length :=
          List.length_pos.mpr (List.ne_nil_of_mem hpkg)
        have hle : ¬ 1 < pkgs.length := fun hl => hnot ⟨hd2, hl⟩
        have hlen1 : pkgs.length = 1 := by omega
        simp [hlen1]

theorem publish_verify_skip_witness :
    (⟨pkgB, true, false⟩ : PublishInvocation) ∈
      (publishLoop (fun _ => true) [pkgB, pkgA] true).1 ∧
    (⟨pkgB, true, false⟩ : PublishInvocation).verify = false :=
  ⟨by decide,
    (publish_verify_skip (fun _ => true) [pkgB, pkgA] true
      ⟨pkgB, true, false⟩ (by decide)).1 ⟨rfl, by decide⟩⟩

/-! ## Claims about tag rendering -/

/-- C4 counterexample: with tag template `v{{version}}` (which does not
reference `{{prefix}}`) and prefix template `{{crate_name}}-`, package
`foo` at 1.2.3 renders the full tag `v1.2.3`, not the claimed
`foo-v1.2.3`. -/
theorem render_tag_counterexample :
    render_tag "v{{version}}" "{{crate_name}}-" "foo" v123 v123 ≠
      "foo-v1.2.3" ∧
    render_tag "v{{version}}" "{{crate_name}}-" "foo" v123 v123 =
      "v1.2.3" := by
  constructor
  · decide
  · decide

/-- C4 amended: tag rendering is two-stage — the tag-prefix template is
rendered against the base template first, the result is bound as the
`prefix` token, and the tag-name template is then rendered; the prefix
reaches the final tag only where the tag-name template references
`{{prefix}}`.  For `foo` at 1.2.3 the prefix renders `foo-`; template
`v{{version}}` yields `v1.2.3`, while `{{prefix}}v{{version}}` yields
`foo-v1.2.3`. -/
theorem render_tag_two_stage :
    (∀ (tn tp nm : String) (prev base : Version),
      render_tag tn tp nm prev base =
        Template.render
          { tagTemplate prev base nm with
            prefixVal := some (Template.render (tagTemplate prev base nm) tp) }
          tn) ∧
    Template.render (tagTemplate v123 v123 "foo") "{{crate_name}}-" =
      "foo-" ∧
    render_tag "v{{version}}" "{{crate_name}}-" "foo" v123 v123 =
      "v1.2.3" ∧
    render_tag "\x7b\x7bprefix\x7d\x7dv{{version}}" "{{crate_name}}-" "foo" v123 v123 =
      "foo-v1.2.3" := by
  refine ⟨fun tn tp nm prev base => rfl, by decide, by decide, by decide⟩

/-! ## Claims about shared-version convergence -/

theorem semverLt_iff {a b : SemVer} :
    semverLt a b = true ↔ cmpSemVer a b = .lt := by
  cases h : cmpSemVer a b <;> simp [semverLt, h] <;> rfl

theorem lookup_updateShared_self (g : String) (v : Version) :
    ∀ (m : List (String × Version)),
      (updateShared m g v).lookup g = maxStep (m.lookup g) v := by
  intro m
  induction m with
  | nil => simp [updateShared, List.lookup, maxStep]
  | cons e rest ih =>
    obtain ⟨g', v'⟩ := e
    by_cases hg : g' = g
    · subst hg
      simp [updateShared, List.lookup, maxStep]
    · have hb : (g == g') = false := by simp [Ne.symm hg]
      simp only [updateShared, if_neg hg, List.lookup, hb]
      exact ih

theorem lookup_updateShared_ne (g gg : String) (hgg : gg ≠ g) (v : Version) :
    ∀ (m : List (String × Version)),
      (updateShared m gg v).lookup g = m.lookup g := by
  intro m
  induction m with
  | nil =>
    have hb : (g == gg) = false := by simp [Ne.symm hgg]
    simp [updateShared, List.lookup, hb]
  | cons e rest ih =>
    obtain ⟨g', v'⟩ := e
    by_cases hg : g' = gg
    · subst hg
      have hb : (g == g') = false := by simp [Ne.symm hgg]
      simp [updateShared, List.lookup, hb]
    · simp only [updateShared, if_neg hg, List.lookup]
      cases hgb : (g == g')
      · exact ih
      · rfl

theorem foldl_scanStep_lookup (g : String) :
    ∀ (l : List PackageRelease) (m : List (String × Version)),
      (l.foldl scanStep m).lookup g =
        (candidates g l).foldl maxStep (m.lookup g) := by
  intro l
  induction l with
  | nil => intro m; rfl
  | cons p rest ih =>
    intro m
    rw [List.foldl_cons]
    by_cases hrel : p.config.release = true
    · cases hg : p.config.shared_version with
      | none =>
        have hstep : scanStep m p = m := by simp [scanStep, hrel, hg]
        have hcand : candidates g (p :: rest) = candidates g rest := by
          simp [candidates, List.filterMap_cons, hg]
        rw [hstep, hcand, ih]
      | some gg =>
        by_cases hgg : gg = g
        · subst hgg
          have hstep : scanStep m p = updateShared m gg (versionOf p) := by
            simp [scanStep, hrel, hg]
          have hcand : candidates gg (p :: rest) =
              versionOf p :: candidates gg rest := by
            simp [candidates, List.filterMap_cons, hg, hrel]
          rw [hstep, hcand, List.foldl_cons, ih, lookup_updateShared_self]
        · have hstep : scanStep m p = updateShared m gg (versionOf p) := by
            simp [scanStep, hrel, hg]
          have hcand : candidates g (p :: rest) = candidates g rest := by
            simp [candidates, List.filterMap_cons, hg, hrel, hgg]
          rw [hstep, hcand, ih, lookup_updateShared_ne g gg hgg]
    · have hstep : scanStep m p = m := by simp [scanStep, hrel]
      have hcand : candidates g (p :: rest) = candidates g rest := by
        simp [candidates, List.filterMap_cons, hrel]
      rw [hstep, hcand, ih]

theorem lookup_sharedVersions (g : String) (l : List PackageRelease) :
    (sharedVersions l).lookup g = (candidates g l).foldl maxStep none :=
  foldl_scanStep_lookup g l []

theorem maxStep_isSome (acc : Option Version) (v : Version) :
    (maxStep acc v).isSome := by
  cases acc <;> simp [maxStep]

theorem foldl_maxStep_isSome :
    ∀ (l : List Version) (acc : Option Version), acc.isSome →
      (l.foldl maxStep acc).isSome := by
  intro l
  induction l with
  | nil => intro acc h; exact h
  | cons v rest ih =>
    intro acc h
    exact ih (maxStep acc v) (maxStep_isSome acc v)

theorem foldl_maxStep_spec :
    ∀ (l : List Version) (acc : Option Version) (mx : Version),
      l.foldl maxStep acc = some mx →
      (mx ∈ l ∨ acc = some mx) ∧
      (∀ v ∈ l, cmpSemVer mx.full_version v.full_version ≠ .lt) ∧
      (∀ a, acc = some a →
        cmpSemVer mx.full_version a.full_version ≠ .lt) := by
  have hcs := cmpSemVer_isLinCmp
  intro l
  induction l with
  | nil =>
    intro acc mx h
    simp only [List.foldl_nil] at h
    refine ⟨Or.inr h, by simp, fun a ha => ?_⟩
    rw [h] at ha
    have hax : a = mx := (Option.some.inj ha).symm
    rw [hax, hcs.refl_eq]
    simp
  | cons v rest ih =>
    intro acc mx h
    rw [List.foldl_cons] at h
    obtain ⟨h1, h2, h3⟩ := ih (maxStep acc v) mx h
    obtain ⟨b, hbe, hbv⟩ : ∃ b, maxStep acc v = some b ∧
        cmpSemVer b.full_version v.full_version ≠ .lt := by
      cases acc with
      | none =>
        refine ⟨v, rfl, ?_⟩
        rw [hcs.refl_eq]; simp
      | some a =>
        by_cases hav : semverLt a.full_version v.full_version = true
        · refine ⟨v, by simp [maxStep, hav], ?_⟩
          rw [hcs.refl_eq]; simp
        · exact ⟨a, by simp [maxStep, hav],
            fun hlt => hav (semverLt_iff.mpr hlt)⟩
    have hmxb : cmpSemVer mx.full_version b.full_version ≠ .lt := h3 b hbe
    have hmxv : cmpSemVer mx.full_version v.full_version ≠ .lt := by
      intro hlt
      cases hbvc : cmpSemVer b.full_version v.full_version with
      | lt => exact hbv hbvc
      | eq =>
        have hfv : b.full_version = v.full_version := (hcs.eq_iff _ _).mp hbvc
        rw [← hfv] at hlt
        exact hmxb hlt
      | gt =>
        have hvb : cmpSemVer v.full_version b.full_version = .lt := by
          have hsw := hcs.swap_eq b.full_version v.full_version
          rw [hbvc] at hsw
          exact hsw.symm
        exact hmxb (hcs.lt_trans hlt hvb)
    refine ⟨?_, ?_, ?_⟩
    · rcases h1 with h1 | h1
      · exact Or.inl (List.mem_cons_of_mem _ h1)
      · cases acc with
        | none =>
          simp only [maxStep] at h1
          have hvm : v = mx := Option.some.inj h1
          exact Or.inl (by rw [← hvm]; exact List.mem_cons_self _ _)
        | some a =>
          simp only [maxStep, Option.some.injEq] at h1
          split at h1
          · exact Or.inl (by rw [← h1]; exact List.mem_cons_self _ _)
          · exact Or.inr (by rw [h1])
    · intro w hw
      rcases List.mem_cons.mp hw with hw | hw
      · rw [hw]; exact hmxv
      · exact h2 w hw
    · intro a ha
      rw [ha] at hbe
      by_cases hav : semverLt a.full_version v.full_version = true
      · intro hma
        exact hmxv (hcs.lt_trans hma (semverLt_iff.mp hav))
      · have hba : b = a := by
          simp only [maxStep, Option.some.injEq, if_neg hav] at hbe
          exact hbe.symm
        rw [← hba]
        exact hmxb

/-- C2 counterexample: two group members with equal bare versions 1.0.0
but build metadata `a` (scanned first) and `b` (scanned second): the
scan retains the second one, 1.0.0+b — build metadata decided, and the
first-scanned candidate was not kept. -/
theorem shared_max_counterexample :
    vMa.bare_version = vMb.bare_version ∧
    (sharedVersions [pkgMa, pkgMb]).lookup "g" = some vMb ∧
    vMb ≠ vMa := by
  refine ⟨by decide, by decide, by decide⟩

/-- C2 amended: the per-group maximum is computed over each member's
planned-or-initial version by comparing the full versions — build
metadata included, under the semver crate's total order — so the
retained entry is a candidate that no other candidate strictly exceeds
in the full-version order (among equal bare versions, greater build
metadata wins; the first-scanned candidate is retained only on
full-version ties). -/
theorem shared_max_full_order (pkgs : List PackageRelease) (g : String)
    (mx : Version) (h : (sharedVersions pkgs).lookup g = some mx) :
    mx ∈ candidates g pkgs ∧
    ∀ v ∈ candidates g pkgs,
      cmpSemVer mx.full_version v.full_version ≠ .lt := by
  rw [lookup_sharedVersions] at h
  obtain ⟨h1, h2, _⟩ := foldl_maxStep_spec _ none mx h
  refine ⟨?_, h2⟩
  rcases h1 with h1 | h1
  · exact h1
  · cases h1

theorem shared_max_full_order_witness :
    vMb ∈ candidates "g" [pkgMa, pkgMb] ∧
    cmpSemVer vMb.full_version vMa.full_version ≠ .lt := by
  obtain ⟨h1, h2⟩ :=
    shared_max_full_order [pkgMa, pkgMb] "g" vMb (by decide)
  exact ⟨h1, h2 vMa (by decide)⟩

theorem planOne_planned_version (q : PackageRelease) :
    (planOne q).planned_version = q.planned_version := by
  simp only [planOne]
  split <;> rfl

/-- C1: after the workspace-wide plan pass, every release-enabled
package declaring a shared-version group has its planned version set to
the group maximum when its bare initial version differs from the
maximum's bare version, and cleared to absent when they agree. -/
theorem plan_shared_assignment (pkgs : List PackageRelease) (i : Nat)
    (p : PackageRelease) (g : String) (hp : pkgs[i]? = some p)
    (hrel : p.config.release = true)
    (hg : p.config.shared_version = some g) :
    ∃ mx, (sharedVersions pkgs).lookup g = some mx ∧
      ∃ q, (plan pkgs)[i]? = some q ∧
        q.planned_version =
          (if p.initial_version.bare_version ≠ mx.bare_version
           then some mx else none) := by
  have hmem : p ∈ pkgs := List.getElem?_mem hp
  have hcand : versionOf p ∈ candidates g pkgs :=
    List.mem_filterMap.mpr ⟨p, hmem, by simp [hrel, hg]⟩
  have hne : candidates g pkgs ≠ [] := List.ne_nil_of_mem hcand
  obtain ⟨c, cs, hcs⟩ := List.exists_cons_of_ne_nil hne
  have hsome : ((candidates g pkgs).foldl maxStep none).isSome := by
    rw [hcs, List.foldl_cons]
    exact foldl_maxStep_isSome cs (maxStep none c) (maxStep_isSome none c)
  obtain ⟨mx, hmx⟩ := Option.isSome_iff_exists.mp hsome
  have hmx' : (sharedVersions pkgs).lookup g = some mx := by
    rw [lookup_sharedVersions]; exact hmx
  refine ⟨mx, hmx', ?_⟩
  have hsvne : sharedVersions pkgs ≠ [] := by
    intro hnil
    rw [hnil] at hmx'
    cases hmx'
  have hsvempty : (sharedVersions pkgs).isEmpty = false := by
    cases hsv : sharedVersions pkgs with
    | nil => exact absurd hsv hsvne
    | cons e rest => rfl
  refine ⟨planOne (assignShared (sharedVersions pkgs) p), ?_, ?_⟩
  · simp [plan, hsvempty, hp]
  · rw [planOne_planned_version]
    simp only [assignShared, hrel, if_pos, hg, hmx']
    split <;> rfl

theorem plan_shared_assignment_witness :
    (sharedVersions [pkgB, pkgA]).lookup "g" = some vTwo ∧
    ((plan [pkgB, pkgA])[1]?.map (fun q => q.planned_version)) =
      some (some vTwo) := by
  obtain ⟨mx, hmx, q, hq, hpv⟩ :=
    plan_shared_assignment [pkgB, pkgA] 1 pkgA "g" (by decide) (by decide)
      (by decide)
  have hc : (sharedVersions [pkgB, pkgA]).lookup "g" = some vTwo := by decide
  have hmxv : mx = vTwo := Option.some.inj (hmx.symm.trans hc)
  subst hmxv
  rw [if_pos (by decide)] at hpv
  refine ⟨hc, ?_⟩
  rw [hq]
  simp [hpv]

/-! ## Claims about the file replacement engine -/

theorem fsWrite_lookup_ne (k p : String) (hne : k ≠ p) (c : String) :
    ∀ fs : FileSys, (fsWrite fs k c).lookup p = fs.lookup p := by
  intro fs
  induction fs with
  | nil => rfl
  | cons e rest ih =>
    obtain ⟨q, d⟩ := e
    by_cases hq : q = k
    · subst hq
      have hb : (p == q) = false := by simp [Ne.symm hne]
      simp [fsWrite, List.lookup, hb]
    · simp only [fsWrite, if_neg hq, List.lookup]
      cases hpq : (p == q)
      · exact ih
      · rfl

theorem mem_insortKey :
    ∀ (ks : List String) (a k : String), a ∈ insortKey k ks →
      a = k ∨ a ∈ ks := by
  intro ks
  induction ks with
  | nil =>
    intro a k h
    simp only [insortKey, List.mem_singleton] at h
    exact Or.inl h
  | cons k' ks ih =>
    intro a k h
    cases hcmp : charListCmp k.data k'.data <;>
      simp only [insortKey, hcmp] at h
    · rcases List.mem_cons.mp h with h | h
      · exact Or.inl h
      · exact Or.inr h
    · exact Or.inr h
    · rcases List.mem_cons.mp h with h | h
      · exact Or.inr (by rw [h]; exact List.mem_cons_self _ _)
      · rcases ih a k h with h | h
        · exact Or.inl h
        · exact Or.inr (List.mem_cons_of_mem _ h)

theorem insortKey_pairwise (k : String) :
    ∀ ks : List String,
      ks.Pairwise (fun a b => charListCmp a.data b.data = .lt) →
      (insortKey k ks).Pairwise
        (fun a b => charListCmp a.data b.data = .lt) := by
  have hlc := charListCmp_isLinCmp
  intro ks
  induction ks with
  | nil => intro _; simp [insortKey]
  | cons k' ks ih =>
    intro hp
    rw [List.pairwise_cons] at hp
    obtain ⟨hk', hks⟩ := hp
    cases hcmp : charListCmp k.data k'.data <;> simp only [insortKey, hcmp]
    · rw [List.pairwise_cons]
      refine ⟨fun b hb => ?_, List.pairwise_cons.mpr ⟨hk', hks⟩⟩
      rcases List.mem_cons.mp hb with hb | hb
      · rw [hb]; exact hcmp
      · exact hlc.lt_trans hcmp (hk' b hb)
    · exact List.pairwise_cons.mpr ⟨hk', hks⟩
    · rw [List.pairwise_cons]
      refine ⟨fun b hb => ?_, ih hks⟩
      rcases mem_insortKey ks b k hb with hb | hb
      · rw [hb]
        have hsw := hlc.swap_eq k.data k'.data
        rw [hcmp] at hsw
        exact hsw.symm
      · exact hk' b hb

theorem foldl_insortKey_pairwise :
    ∀ (names : List String) (ks : List String),
      ks.Pairwise (fun a b => charListCmp a.data b.data = .lt) →
      (names.foldl (fun ks k => insortKey k ks) ks).Pairwise
        (fun a b => charListCmp a.data b.data = .lt) := by
  intro names
  induction names with
  | nil => intro ks h; exact h
  | cons n names ih =>
    intro ks h
    exact ih (insortKey n ks) (insortKey_pairwise n ks h)

theorem groupByFile_keys_nodup (cfg : List Replace) :
    ((groupByFile cfg).map Prod.fst).Nodup := by
  have hlc := charListCmp_isLinCmp
  have hpw := foldl_insortKey_pairwise (cfg.map (·.file)) [] (by simp)
  have hkeys : (groupByFile cfg).map Prod.fst =
      (cfg.map (·.file)).foldl (fun ks k => insortKey k ks) [] := by
    simp only [groupByFile, List.map_map]
    generalize (cfg.map (·.file)).foldl (fun ks k => insortKey k ks) [] = ks
    induction ks with
    | nil => rfl
    | cons a ks ih => simp_all
  rw [hkeys]
  refine List.Pairwise.imp ?_ hpw
  intro a b hab
  intro heq
  rw [heq, hlc.refl_eq] at hab
  cases hab

theorem applyRules_append (compile : String → Except String Regex)
    (tpl : Template) (pre : Bool) :
    ∀ (l1 l2 : List Replace) (c : String),
      applyRules compile tpl pre (l1 ++ l2) c =
        (match applyRules compile tpl pre l1 c with
          | .ok m => applyRules compile tpl pre l2 m
          | .error e => .error e) := by
  intro l1
  induction l1 with
  | nil => intro l2 c; rfl
  | cons r l1 ih =>
    intro l2 c
    simp only [List.cons_append, applyRules]
    by_cases hg : (pre && !r.prerelease) = true
    · rw [if_pos hg, if_pos hg]
      exact ih l2 c
    · rw [if_neg hg, if_neg hg]
      cases hc : compile r.search with
      | error e => rfl
      | ok rx =>
        dsimp only
        by_cases h1 : rx.count c < (r.min.or r.exactly).getD 1
        · rw [if_pos h1, if_pos h1]
        · rw [if_neg h1, if_neg h1]
          by_cases h2 : (r.max.or r.exactly).getD usizeMax < rx.count c
          · rw [if_pos h2, if_pos h2]
          · rw [if_neg h2, if_neg h2]
            exact ih l2 _

theorem applyRules_violation (compile : String → Except String Regex)
    (tpl : Template) (pre : Bool) (r : Replace) (rest : List Replace)
    (c : String) (rx : Regex)
    (happ : (pre && !r.prerelease) = false)
    (hcompile : compile r.search = .ok rx)
    (hviol : rx.count c < (r.min.or r.exactly).getD 1 ∨
      (r.max.or r.exactly).getD usizeMax < rx.count c) :
    ∃ e, applyRules compile tpl pre (r :: rest) c = .error e := by
  simp only [applyRules, happ, Bool.false_eq_true, if_false, hcompile]
  by_cases h1 : rx.count c < (r.min.or r.exactly).getD 1
  · rw [if_pos h1]
    exact ⟨_, rfl⟩
  · rw [if_neg h1]
    have h2 : (r.max.or r.exactly).getD usizeMax < rx.count c := by
      rcases hviol with h | h
      · exact absurd h h1
      · exact h
    rw [if_pos h2]
    exact ⟨_, rfl⟩

theorem processFiles_dry (compile : String → Except String Regex)
    (tpl : Template) (pre : Bool) :
    ∀ (L : List (String × List Replace)) (fs : FileSys),
      (processFiles compile tpl pre true L fs).1 = fs := by
  intro L
  induction L with
  | nil => intro fs; rfl
  | cons e rest ih =>
    intro fs
    obtain ⟨path, rs⟩ := e
    cases hl : fs.lookup path with
    | none => simp [processFiles, hl]
    | some data =>
      cases ha : applyRules compile tpl pre rs data with
      | error e => simp [processFiles, hl, ha]
      | ok rep =>
        simp only [processFiles, hl, ha, if_true, ite_self]
        exact ih fs

theorem processFiles_lookup_not_mem (compile : String → Except String Regex)
    (tpl : Template) (pre dry : Bool) :
    ∀ (L : List (String × List Replace)) (fs : FileSys) (path : String),
      path ∉ L.map Prod.fst →
      (processFiles compile tpl pre dry L fs).1.lookup path =
        fs.lookup path := by
  intro L
  induction L with
  | nil => intro fs path _; rfl
  | cons e rest ih =>
    intro fs path hnm
    obtain ⟨k, rs⟩ := e
    simp only [List.map_cons, List.mem_cons, not_or] at hnm
    obtain ⟨hk, hrest⟩ := hnm
    cases hl : fs.lookup k with
    | none => simp [processFiles, hl]
    | some data =>
      cases ha : applyRules compile tpl pre rs data with
      | error e => simp [processFiles, hl, ha]
      | ok rep =>
        simp only [processFiles, hl, ha]
        rw [ih _ path hrest]
        by_cases hch : data ≠ rep
        · rw [if_pos hch]
          cases dry with
          | true => rfl
          | false =>
            simp only [Bool.false_eq_true, if_false]
            exact fsWrite_lookup_ne k path (fun h => hk h.symm) rep fs
        · rw [if_neg hch]


theorem processFiles_reach_error (compile : String → Except String Regex)
    (tpl : Template) (pre dry : Bool) :
    ∀ (L : List (String × List Replace)) (fs : FileSys) (path : String)
      (rules : List Replace) (data : String),
      (path, rules) ∈ L → (L.map Prod.fst).Nodup →
      fs.lookup path = some data →
      (∃ e, applyRules compile tpl pre rules data = .error e) →
      (processFiles compile tpl pre dry L fs).2 ≠ none ∧
      (processFiles compile tpl pre dry L fs).1.lookup path =
        fs.lookup path := by
  intro L
  induction L with
  | nil => intro fs path rules data hmem; cases hmem
  | cons e rest ih =>
    intro fs path rules data hmem hnd hdata herr
    obtain ⟨k, rs⟩ := e
    rw [List.map_cons, List.nodup_cons] at hnd
    obtain ⟨hknm, hndr⟩ := hnd
    rcases List.mem_cons.mp hmem with hhead | htail
    · cases hhead
      obtain ⟨err, herr⟩ := herr
      simp [processFiles, hdata, herr]
    · have hkp : k ≠ path := by
        intro hk
        dsimp only at hknm
        apply hknm
        rw [hk]
        exact List.mem_map.mpr ⟨(path, rules), htail, rfl⟩
      cases hl : fs.lookup k with
      | none => simp [processFiles, hl]
      | some dk =>
        cases ha : applyRules compile tpl pre rs dk with
        | error e => simp [processFiles, hl, ha]
        | ok rep =>
          simp only [processFiles, hl, ha]
          have hfr : ∀ fs' : FileSys, fs'.lookup path = fs.lookup path →
              (processFiles compile tpl pre dry rest fs').2 ≠ none ∧
              (processFiles compile tpl pre dry rest fs').1.lookup path =
                fs.lookup path := by
            intro fs' hfs'
            obtain ⟨h1, h2⟩ := ih fs' path rules data htail hndr
              (hfs'.trans hdata) herr
            exact ⟨h1, h2.trans hfs'⟩
          by_cases hch : dk ≠ rep
          · rw [if_pos hch]
            cases dry with
            | true => exact hfr fs rfl
            | false =>
              simp only [Bool.false_eq_true, if_false]
              exact hfr (fsWrite fs k rep) (fsWrite_lookup_ne k path hkp rep fs)
          · rw [if_neg hch]
            exact hfr fs rfl

theorem processFiles_unchanged (compile : String → Except String Regex)
    (tpl : Template) (pre dry : Bool) :
    ∀ (L : List (String × List Replace)) (fs : FileSys) (path : String)
      (rules : List Replace) (data : String),
      (path, rules) ∈ L → (L.map Prod.fst).Nodup →
      fs.lookup path = some data →
      applyRules compile tpl pre rules data = .ok data →
      (processFiles compile tpl pre dry L fs).1.lookup path =
        some data := by
  intro L
  induction L with
  | nil => intro fs path rules data hmem; cases hmem
  | cons e rest ih =>
    intro fs path rules data hmem hnd hdata hok
    obtain ⟨k, rs⟩ := e
    rw [List.map_cons, List.nodup_cons] at hnd
    obtain ⟨hknm, hndr⟩ := hnd
    rcases List.mem_cons.mp hmem with hhead | htail
    · cases hhead
      simp only [processFiles, hdata, hok]
      rw [if_neg (by simp)]
      rw [processFiles_lookup_not_mem compile tpl pre dry rest fs path hknm]
      exact hdata
    · have hkp : k ≠ path := by
        intro hk
        dsimp only at hknm
        apply hknm
        rw [hk]
        exact List.mem_map.mpr ⟨(path, rules), htail, rfl⟩
      cases hl : fs.lookup k with
      | none => simp [processFiles, hl, hdata]
      | some dk =>
        cases ha : applyRules compile tpl pre rs dk with
        | error e => simp [processFiles, hl, ha, hdata]
        | ok rep =>
          simp only [processFiles, hl, ha]
          by_cases hch : dk ≠ rep
          · rw [if_pos hch]
            cases dry with
            | true => exact ih fs path rules data htail hndr hdata hok
            | false =>
              simp only [Bool.false_eq_true, if_false]
              exact ih (fsWrite fs k rep) path rules data htail hndr
                ((fsWrite_lookup_ne k path hkp rep fs).trans hdata) hok
          · rw [if_neg hch]
            exact ih fs path rules data htail hndr hdata hok

/-- C5: a replacement rule whose occurrence bound is violated against
the file's current content (too few or too many matches; `exactly` pins
both bounds, the default is at least one and unbounded above) makes
`do_file_replacements` fail, and the target file's entry on disk is left
exactly as it was. -/
theorem file_replacement_bound_violation
    (compile : String → Except String Regex) (cfg : List Replace)
    (tpl : Template) (fs : FileSys) (pre dry : Bool) (path : String)
    (rules : List Replace) (data c : String) (i : Nat) (r : Replace)
    (rx : Regex)
    (hmem : (path, rules) ∈ groupByFile cfg)
    (hdata : fs.lookup path = some data)
    (hsofar : applyRules compile tpl pre (rules.take i) data = .ok c)
    (hr : rules[i]? = some r)
    (happ : (pre && !r.prerelease) = false)
    (hcompile : compile r.search = .ok rx)
    (hviol : rx.count c < (r.min.or r.exactly).getD 1 ∨
      (r.max.or r.exactly).getD usizeMax < rx.count c) :
    (do_file_replacements compile cfg tpl fs pre dry).2 ≠ none ∧
    (do_file_replacements compile cfg tpl fs pre dry).1.lookup path =
      fs.lookup path := by
  have hlt : i < rules.length := by
    by_contra hge
    rw [List.getElem?_eq_none (Nat.le_of_not_lt hge)] at hr
    cases hr
  have hdrop : rules.drop i = r :: rules.drop (i + 1) := by
    rw [List.drop_eq_getElem_cons hlt]
    have : rules[i] = r := by
      have := List.getElem?_eq_getElem hlt
      rw [hr] at this
      exact (Option.some.inj this).symm
    rw [this]
  have herr : ∃ e, applyRules compile tpl pre rules data = .error e := by
    obtain ⟨e, he⟩ := applyRules_violation compile tpl pre r
      (rules.drop (i + 1)) c rx happ hcompile hviol
    refine ⟨e, ?_⟩
    have hsplit := applyRules_append compile tpl pre (rules.take i)
      (rules.drop i) data
    rw [List.take_append_drop] at hsplit
    rw [hsplit, hsofar, hdrop]
    dsimp only
    exact he
  exact processFiles_reach_error compile tpl pre dry (groupByFile cfg) fs
    path rules data hmem (groupByFile_keys_nodup cfg) hdata herr

theorem file_replacement_bound_violation_witness :
    (do_file_replacements compileNone [ruleExactly1] tplEmpty fsW
      false false).2 ≠ none ∧
    (do_file_replacements compileNone [ruleExactly1] tplEmpty fsW
      false false).1.lookup "Cargo.toml" = fsW.lookup "Cargo.toml" :=
  file_replacement_bound_violation compileNone [ruleExactly1] tplEmpty fsW
    false false "Cargo.toml" [ruleExactly1] "content" "content" 0
    ruleExactly1 rxNone (by decide) (by decide) rfl (by decide) rfl rfl
    (Or.inl (by decide))

/-- C6: dry-run file replacement writes nothing at all, and in every
mode a file whose content is unchanged after all of its rules is left
untouched on disk. -/
theorem file_replacement_dry_run_and_noop
    (compile : String → Except String Regex) (cfg : List Replace)
    (tpl : Template) (fs : FileSys) (pre : Bool) :
    ((do_file_replacements compile cfg tpl fs pre true).1 = fs) ∧
    (∀ (dry : Bool) (path : String) (rules : List Replace) (data : String),
      (path, rules) ∈ groupByFile cfg →
      fs.lookup path = some data →
      applyRules compile tpl pre rules data = .ok data →
      (do_file_replacements compile cfg tpl fs pre dry).1.lookup path =
        some data) := by
  refine ⟨processFiles_dry compile tpl pre (groupByFile cfg) fs, ?_⟩
  intro dry path rules data hmem hdata hok
  exact processFiles_unchanged compile tpl pre dry (groupByFile cfg) fs
    path rules data hmem (groupByFile_keys_nodup cfg) hdata hok

theorem file_replacement_dry_run_and_noop_witness :
    ((do_file_replacements compileSame [ruleExactly1] tplEmpty fsW
      false true).1 = fsW) ∧
    ((do_file_replacements compileSame [ruleExactly1] tplEmpty fsW
      false false).1.lookup "Cargo.toml" = some "content") := by
  have h := file_replacement_dry_run_and_noop compileSame [ruleExactly1]
    tplEmpty fsW false
  exact ⟨h.1, h.2 false "Cargo.toml" [ruleExactly1] "content" (by decide)
    rfl rfl⟩


/-! ## Claim C3: order independence of the plan pass -/

theorem versionOf_wf {p : PackageRelease} (h : wfPkg p) :
    (versionOf p).wf := by
  cases hpv : p.planned_version with
  | none => simp only [versionOf, hpv, Option.getD_none]; exact h.1
  | some w => simp only [versionOf, hpv, Option.getD_some]; exact h.2 w hpv

theorem maxStep_swap_lt {x y : Version}
    (hxy : cmpSemVer x.full_version y.full_version = .lt)
    (acc : Option Version) :
    maxStep (maxStep acc x) y = maxStep (maxStep acc y) x := by
  have hcs := cmpSemVer_isLinCmp
  have hyx : ¬ semverLt y.full_version x.full_version = true := by
    intro h
    exact hcs.lt_asymm hxy (semverLt_iff.mp h)
  have hxyB : semverLt x.full_version y.full_version = true :=
    semverLt_iff.mpr hxy
  cases acc with
  | none =>
    simp only [maxStep]
    rw [if_pos hxyB, if_neg hyx]
  | some a =>
    simp only [maxStep, Option.some.injEq]
    by_cases hax : semverLt a.full_version x.full_version = true
    · have hay : semverLt a.full_version y.full_version = true :=
        semverLt_iff.mpr (hcs.lt_trans (semverLt_iff.mp hax) hxy)
      rw [if_pos hax, if_pos hay, if_pos hxyB, if_neg hyx]
    · by_cases hay : semverLt a.full_version y.full_version = true
      · rw [if_neg hax, if_pos hay, if_neg hyx]
      · rw [if_neg hax, if_neg hay, if_neg hax]

theorem maxStep_swap {x y : Version} (hx : x.wf) (hy : y.wf)
    (acc : Option Version) :
    maxStep (maxStep acc x) y = maxStep (maxStep acc y) x := by
  have hcs := cmpSemVer_isLinCmp
  cases hxy : cmpSemVer x.full_version y.full_version with
  | lt => exact maxStep_swap_lt hxy acc
  | eq =>
    have hfeq : x.full_version = y.full_version := (hcs.eq_iff _ _).mp hxy
    have hxyv : x = y := by
      rw [hx, hy, hfeq]
    rw [hxyv]
  | gt =>
    have hyx : cmpSemVer y.full_version x.full_version = .lt := by
      have hsw := hcs.swap_eq x.full_version y.full_version
      rw [hxy] at hsw
      exact hsw.symm
    exact (maxStep_swap_lt hyx acc).symm

theorem foldl_maxStep_perm {t1 t2 : List Version} (hperm : t1.Perm t2) :
    (∀ v ∈ t1, v.wf) →
    ∀ acc : Option Version, t1.foldl maxStep acc = t2.foldl maxStep acc := by
  induction hperm with
  | nil => intro _ acc; rfl
  | cons x h ih =>
    intro hwf acc
    simp only [List.foldl_cons]
    exact ih (fun v hv => hwf v (List.mem_cons_of_mem _ hv)) (maxStep acc x)
  | swap x y l =>
    intro hwf acc
    simp only [List.foldl_cons]
    rw [maxStep_swap (hwf y (List.mem_cons_self _ _))
      (hwf x (List.mem_cons_of_mem _ (List.mem_cons_self _ _))) acc]
  | trans h1 h2 ih1 ih2 =>
    intro hwf acc
    rw [ih1 hwf acc, ih2 (fun v hv => hwf v (h1.mem_iff.mpr hv)) acc]

theorem candidates_wf (g : String) (l : List PackageRelease)
    (hwf : ∀ p ∈ l, wfPkg p) : ∀ v ∈ candidates g l, v.wf := by
  intro v hv
  obtain ⟨p, hp, heq⟩ := List.mem_filterMap.mp hv
  split at heq
  · exact Option.some.inj heq ▸ versionOf_wf (hwf p hp)
  · cases heq

theorem sharedVersions_lookup_perm {l1 l2 : List PackageRelease}
    (hperm : l1.Perm l2) (hwf : ∀ p ∈ l1, wfPkg p) (g : String) :
    (sharedVersions l1).lookup g = (sharedVersions l2).lookup g := by
  rw [lookup_sharedVersions, lookup_sharedVersions]
  exact foldl_maxStep_perm (hperm.filterMap _) (candidates_wf g l1 hwf) none

theorem sharedVersions_eq_nil_iff (l : List PackageRelease) :
    sharedVersions l = [] ↔
      ∀ g, (sharedVersions l).lookup g = none := by
  constructor
  · intro h g; rw [h]; rfl
  · intro h
    cases hsv : sharedVersions l with
    | nil => rfl
    | cons e rest =>
      exfalso
      obtain ⟨gname, v⟩ := e
      have := h gname
      rw [hsv] at this
      simp [List.lookup] at this

theorem assignShared_congr {sv1 sv2 : List (String × Version)}
    (hsv : ∀ g, sv1.lookup g = sv2.lookup g) (p : PackageRelease) :
    assignShared sv1 p = assignShared sv2 p := by
  simp only [assignShared]
  cases p.config.shared_version with
  | none => rfl
  | some g =>
    dsimp only
    rw [hsv g]

theorem assignShared_name (sv : List (String × Version))
    (p : PackageRelease) : (assignShared sv p).name = p.name := by
  simp only [assignShared]
  split
  · cases p.config.shared_version with
    | none => rfl
    | some g =>
      dsimp only
      cases sv.lookup g with
      | none => rfl
      | some mx => dsimp only; split <;> rfl
  · rfl

theorem planOne_name (p : PackageRelease) : (planOne p).name = p.name := by
  simp only [planOne]
  split <;> rfl

theorem find?_name_map (f : PackageRelease → PackageRelease)
    (hf : ∀ p, (f p).name = p.name) (n : String) :
    ∀ l : List PackageRelease,
      (l.map f).find? (fun q => q.name = n) =
        (l.find? (fun p => p.name = n)).map f := by
  intro l
  induction l with
  | nil => rfl
  | cons p l ih =>
    simp only [List.map_cons, List.find?]
    have hd : (decide ((f p).name = n)) = (decide (p.name = n)) := by
      rw [hf p]
    rw [hd]
    cases hp : decide (p.name = n) with
    | true => rfl
    | false => exact ih

theorem find?_name_perm {l1 l2 : List PackageRelease} (hperm : l1.Perm l2)
    (hnd : (l1.map (fun p => p.name)).Nodup) (n : String) :
    l1.find? (fun p => p.name = n) = l2.find? (fun p => p.name = n) := by
  cases h1 : l1.find? (fun p => p.name = n) with
  | none =>
    cases h2 : l2.find? (fun p => p.name = n) with
    | none => rfl
    | some q =>
      exfalso
      have hq := List.find?_some h2
      have hqmem := List.mem_of_find?_eq_some h2
      exact absurd hq (by
        simpa using List.find?_eq_none.mp h1 q (hperm.mem_iff.mpr hqmem))
  | some p =>
    have hp := List.find?_some h1
    have hpmem := List.mem_of_find?_eq_some h1
    cases h2 : l2.find? (fun p => p.name = n) with
    | none =>
      exfalso
      exact absurd hp (by
        simpa using List.find?_eq_none.mp h2 p (hperm.mem_iff.mp hpmem))
    | some q =>
      have hq := List.find?_some h2
      have hqmem1 : q ∈ l1 := hperm.mem_iff.mpr (List.mem_of_find?_eq_some h2)
      have hpn : p.name = n := of_decide_eq_true hp
      have hqn : q.name = n := of_decide_eq_true hq
      have hpq : p = q :=
        List.inj_on_of_nodup_map hnd hpmem hqmem1 (hpn.trans hqn.symm)
      rw [hpq]

/-- C3: the outcome of the workspace-wide plan pass does not depend on
the iteration order of the package map: for any permutation of the same
packages (whose stored versions satisfy the data-model invariant and
whose names are distinct, as map keys are), the per-group maxima agree
on every group and the planned result for every package name is
identical. -/
theorem plan_order_independent (l1 l2 : List PackageRelease)
    (hperm : l1.Perm l2) (hwf : ∀ p ∈ l1, wfPkg p)
    (hnd : (l1.map (fun p => p.name)).Nodup) :
    (∀ g, (sharedVersions l1).lookup g = (sharedVersions l2).lookup g) ∧
    (∀ n, (plan l1).find? (fun p => p.name = n) =
      (plan l2).find? (fun p => p.name = n)) := by
  have hsv : ∀ g, (sharedVersions l1).lookup g = (sharedVersions l2).lookup g :=
    fun g => sharedVersions_lookup_perm hperm hwf g
  refine ⟨hsv, ?_⟩
  intro n
  have hnil : (sharedVersions l1 = []) ↔ (sharedVersions l2 = []) := by
    rw [sharedVersions_eq_nil_iff, sharedVersions_eq_nil_iff]
    constructor
    · intro h g; rw [← hsv g]; exact h g
    · intro h g; rw [hsv g]; exact h g
  by_cases hemp : sharedVersions l1 = []
  · have hemp2 : sharedVersions l2 = [] := hnil.mp hemp
    have he1 : (sharedVersions l1).isEmpty = true := by rw [hemp]; rfl
    have he2 : (sharedVersions l2).isEmpty = true := by rw [hemp2]; rfl
    simp only [plan, he1, he2, if_true]
    rw [find?_name_map planOne planOne_name n l1,
      find?_name_map planOne planOne_name n l2,
      find?_name_perm hperm hnd n]
  · have hemp2 : ¬ sharedVersions l2 = [] := fun h => hemp (hnil.mpr h)
    have he1 : (sharedVersions l1).isEmpty = false := by
      cases hsv1 : sharedVersions l1 with
      | nil => exact absurd hsv1 hemp
      | cons e rest => rfl
    have he2 : (sharedVersions l2).isEmpty = false := by
      cases hsv2 : sharedVersions l2 with
      | nil => exact absurd hsv2 hemp2
      | cons e rest => rfl
    simp only [plan, he1, he2, Bool.false_eq_true, if_false]
    have hmap2 : l2.map (assignShared (sharedVersions l2)) =
        l2.map (assignShared (sharedVersions l1)) :=
      List.map_congr_left (fun p _ => (assignShared_congr hsv p).symm)
    rw [hmap2, List.map_map, List.map_map,
      find?_name_map _ (fun p => by
        dsimp only [Function.comp]
        rw [planOne_name, assignShared_name]) n l1,
      find?_name_map _ (fun p => by
        dsimp only [Function.comp]
        rw [planOne_name, assignShared_name]) n l2,
      find?_name_perm hperm hnd n]

theorem plan_order_independent_witness :
    (sharedVersions [pkgB, pkgA]).lookup "g" =
      (sharedVersions [pkgA, pkgB]).lookup "g" ∧
    (plan [pkgB, pkgA]).find? (fun p => p.name = "a") =
      (plan [pkgA, pkgB]).find? (fun p => p.name = "a") := by
  have h := plan_order_independent [pkgB, pkgA] [pkgA, pkgB]
    (List.Perm.swap pkgA pkgB []) (by decide) (by decide)
  exact ⟨h.1 "g", h.2 "a"⟩

end CargoRelease
